import Mathlib

/-!
# Verification of the AVL-backed ordered map (ft_container_v2)

Shallow embedding of `src/Utility/avl.hpp` (class `ft::AVL`) and
`src/containers/map.hpp` (class `ft::Map`).

Modelling conventions:
* A tree node (`struct node`) becomes a constructor of the inductive type
  `NTree`, carrying the key, the mapped value and the *cached* `height`
  field (`size_type height` in the source).  Absent children (`NULL`
  pointers) are the `nil` constructor.
* `parent` pointers are used by the source only for iterator navigation
  (in-order successor / predecessor); iteration over the whole container is
  therefore modelled by the in-order listing `toList`.
* The comparator template parameter `Compare` is instantiated, as in the
  default `std::less<Key>`, by the strict order of a `LinearOrder`.
* `size_t` values become `Nat`.  The only subtraction performed by the
  source (`--this->_size`) happens behind a check that the key is present,
  which in every well-formed state implies `_size ≥ 1`, so truncated `Nat`
  subtraction agrees with the machine subtraction there.
-/

namespace FtContainers

/-- A node of `ft::AVL` (`struct node`): `left`, the stored pair
`value = (key, mapped)`, the cached `height` field, and `right`.
`nil` is the `NULL` pointer. -/
inductive NTree (α β : Type) : Type where
  | nil : NTree α β
  | node (l : NTree α β) (key : α) (val : β) (height : Nat) (r : NTree α β) : NTree α β
  deriving DecidableEq

namespace NTree

variable {α β : Type} [LinearOrder α]

/-- `node::is_equal`: two keys are equivalent when the comparator returns
the same answer in both argument orders (for a strict order: false both
ways). Source: avl.hpp lines 93-100. -/
def is_equal (a b : α) : Bool :=
  (decide (a < b)) == (decide (b < a))

theorem is_equal_iff (a b : α) : is_equal a b = true ↔ a = b := by
  simp only [is_equal, beq_iff_eq, decide_eq_decide]
  constructor
  · intro h
    rcases lt_trichotomy a b with h' | h' | h'
    · exact absurd (h.mp h') (lt_asymm h')
    · exact h'
    · exact absurd (h.mpr h') (lt_asymm h')
  · intro h; subst h; simp

theorem is_equal_eq_decide (a b : α) : is_equal a b = decide (a = b) := by
  by_cases h : a = b
  · simp [h, is_equal]
  · have h1 : is_equal a b = false := by
      cases heq : is_equal a b
      · rfl
      · exact absurd ((is_equal_iff a b).mp heq) h
    rw [h1]
    symm
    simpa using h

/-- Cached height of a subtree: `0` for `NULL`, else the node's stored
`height` field (the code always reads heights through this pattern,
e.g. avl.hpp lines 387-388). -/
def cachedH : NTree α β → Nat
  | nil => 0
  | node _ _ _ h _ => h

/-- `node::update_height` (avl.hpp lines 186-200): recompute this node's
cached height as `1 + max` of the children's cached heights (absent
children contribute `0`); a no-op on `NULL`. -/
def updH : NTree α β → NTree α β
  | nil => nil
  | node l k v _ r => node l k v (1 + max (cachedH l) (cachedH r)) r

/-- `AVL::get_balance` (avl.hpp lines 383-391): cached height of the left
child minus cached height of the right child.  (The source dereferences
its argument; it is never called on `NULL`, so the `nil` case is junk.) -/
def get_balance : NTree α β → Int
  | nil => 0
  | node l _ _ _ r => (cachedH l : Int) - (cachedH r : Int)

/-- `node::left_rotation` (avl.hpp lines 127-152).  The pivot is the right
child; afterwards the heights of the rotated node's two children, the
rotated node, and the new subtree root are recomputed in that order.
(The source would dereference `NULL` if the right child were absent; that
call never happens, so that case returns the tree unchanged.) -/
def left_rotation : NTree α β → NTree α β
  | node l k v h (node rl rk rv rh rr) =>
    let l' := updH l
    let rl' := updH rl
    let this' := updH (node l' k v h rl')
    updH (node this' rk rv rh rr)
  | t => t

/-- `node::right_rotation` (avl.hpp lines 159-179), mirror image of
`left_rotation`. -/
def right_rotation : NTree α β → NTree α β
  | node (node ll lk lv lh lr) k v h r =>
    let r' := updH r
    let lr' := updH lr
    let this' := updH (node lr' k v h r')
    updH (node ll lk lv lh this')
  | t => t

/-- `AVL::balance_tree` (avl.hpp lines 331-376).  Note the strict
comparisons `get_balance(root->left) > 0` (line 348) and
`get_balance(root->right) < 0` (line 364) selecting the single-rotation
cases. -/
def balance_tree : NTree α β → NTree α β
  | nil => nil
  | node l k v h r =>
    let b := get_balance (node l k v h r)
    if b.natAbs ≠ 2 then node l k v h r
    else if b > 0 then
      if get_balance l > 0 then right_rotation (node l k v h r)
      else right_rotation (node (left_rotation l) k v h r)
    else
      if get_balance r < 0 then left_rotation (node l k v h r)
      else left_rotation (node l k v h (right_rotation r))

/-- Recursive `AVL::insert(node*, node*, value_type)` (avl.hpp
lines 413-427): create a fresh node of height 1 in an empty slot; on an
equivalent key return the subtree unchanged; otherwise recurse on the side
chosen by `comp(root.key, key)`, then `update_height` and `balance_tree`. -/
def insertT : NTree α β → α → β → NTree α β
  | nil, k, v => node nil k v 1 nil
  | node l tk tv h r, k, v =>
    if is_equal tk k then node l tk tv h r
    else if tk < k then balance_tree (updH (node l tk tv h (insertT r k v)))
    else balance_tree (updH (node (insertT l k v) tk tv h r))

/-- `node::minimum_node` (avl.hpp lines 217-232): follow left children to
exhaustion; the second argument is the value for the (unused) `NULL`
case. -/
def minKVD : NTree α β → α × β → α × β
  | nil, d => d
  | node l k v _ _, _ => minKVD l (k, v)

/-- The epilogue of the recursive delete (avl.hpp lines 521-525): if the
subtree became `NULL` return it, else `update_height` then
`balance_tree`. -/
def rebalanceNN : NTree α β → NTree α β
  | nil => nil
  | node l k v h r => balance_tree (updH (node l k v h r))

/-- Recursive `AVL::delete_node(node*, key_type)` (avl.hpp lines 464-526).
On the found node: with at most one child the surviving child's children
and stored pair are copied into the current node (the node keeps its own
stale `height` field until the later `update_height`); with two children
the in-order successor's pair is copied in and its key deleted from the
right subtree.  Afterwards the `rebalanceNN` epilogue runs. -/
def deleteT : NTree α β → α → NTree α β
  | nil, _ => nil
  | node l tk tv h r, k =>
    rebalanceNN
      (if is_equal tk k then
        match l, r with
        | nil, nil => nil
        | nil, node rl rk rv _ rr => node rl rk rv h rr
        | node ll lk lv _ lr, nil => node ll lk lv h lr
        | node _ _ _ _ _, node _ _ _ _ _ =>
          let m := minKVD r (tk, tv)
          node l m.1 m.2 h (deleteT r m.1)
      else if tk < k then node l tk tv h (deleteT r k)
      else node (deleteT l k) tk tv h r)

/-- `AVL::search(node*, key_type)` (avl.hpp lines 544-554); the returned
node is represented by its stored pair. -/
def searchT : NTree α β → α → Option (α × β)
  | nil, _ => none
  | node l tk tv _ r, k =>
    if is_equal tk k then some (tk, tv)
    else if tk < k then searchT r k
    else searchT l k

/-- `AVL::lower_bound(node*, key_type const&)` (avl.hpp lines 562-582). -/
def lower_boundT : NTree α β → α → Option (α × β)
  | nil, _ => none
  | node l tk tv _ r, k =>
    if is_equal tk k then some (tk, tv)
    else
      let tmp := if k < tk then lower_boundT l k else lower_boundT r k
      match tmp with
      | some m =>
        if is_equal m.1 k ∨ m.1 < tk then some m
        else if ¬ tk < k then some (tk, tv)
        else some m
      | none => if ¬ tk < k then some (tk, tv) else none

/-- `AVL::upper_bound(node*, key_type const&)` (avl.hpp lines 600-620). -/
def upper_boundT : NTree α β → α → Option (α × β)
  | nil, _ => none
  | node l tk tv _ r, k =>
    let tmp := if k < tk then upper_boundT l k else upper_boundT r k
    match tmp with
    | some m =>
      if m.1 < tk then some m
      else if k < tk then some (tk, tv)
      else some m
    | none => if k < tk then some (tk, tv) else none

/-- In-order listing of the stored pairs (the sequence an iterator walk
from `begin()` to `end()` visits). -/
def toList : NTree α β → List (α × β)
  | nil => []
  | node l k v _ r => toList l ++ (k, v) :: toList r

/-- The keys, in in-order sequence. -/
def keys (t : NTree α β) : List α := (toList t).map Prod.fst

/-- True height of a subtree (absent children count 0). -/
def realHeight : NTree α β → Nat
  | nil => 0
  | node l _ _ _ r => 1 + max (realHeight l) (realHeight r)

/-- Boolean check of the AVL balance invariant using true subtree
heights: every node's children differ in height by at most one. -/
def balancedB : NTree α β → Bool
  | nil => true
  | node l _ _ _ r =>
    (decide (((realHeight l : Int) - (realHeight r : Int)).natAbs ≤ 1))
      && balancedB l && balancedB r

/-- The cached `height` fields are everywhere the true heights. -/
def heightsOK : NTree α β → Bool
  | nil => true
  | node l _ _ h r =>
    (decide (h = 1 + max (realHeight l) (realHeight r)))
      && heightsOK l && heightsOK r

end NTree

open NTree

/-- The handles owned by an `ft::AVL` object: the `root` pointer and the
`left` child pointer of the always-allocated sentinel `root_parent`
(avl.hpp lines 751-755).  A pointer is represented by the object graph it
reaches. -/
structure AVLState (α β : Type) where
  root : NTree α β
  rpLeft : NTree α β
  deriving DecidableEq

variable {α β : Type} [LinearOrder α]

/-- Public `AVL::insert(value_type)` (avl.hpp lines 398-404): recursive
insert on `root`, then resynchronize `root_parent->left`. -/
def avlInsert (s : AVLState α β) (k : α) (v : β) : AVLState α β :=
  let t := insertT s.root k v
  ⟨t, t⟩

/-- Public `AVL::delete_node(key_type)` (avl.hpp lines 450-456). -/
def avlDelete (s : AVLState α β) (k : α) : AVLState α β :=
  let t := deleteT s.root k
  ⟨t, t⟩

/-- `AVL::clear(bool)` (avl.hpp lines 685-692): destroy all nodes, set
`root = NULL` and resynchronize the sentinel. -/
def avlClear (_s : AVLState α β) : AVLState α β := ⟨NTree.nil, NTree.nil⟩

/-- `AVL::copy_tree(const node*)` (avl.hpp lines 699-708): walk the source
subtree right child first, then left child, then re-insert this node's
pair through the public `insert`. -/
def copy_tree (s : AVLState α β) : NTree α β → AVLState α β
  | NTree.nil => s
  | NTree.node l k v _ r => avlInsert (copy_tree (copy_tree s r) l) k v

/-- `AVL::operator=` (avl.hpp lines 738-747): clear this tree, then
`copy_tree` from the right-hand side's root.  (Allocator and comparator
member copies have no observable effect here.) -/
def avlAssign (_s : AVLState α β) (rhs : AVLState α β) : AVLState α β :=
  copy_tree ⟨NTree.nil, NTree.nil⟩ rhs.root

/-- `AVL::swap` (avl.hpp lines 715-736): the two objects exchange their
`root` and `root_parent` handles wholesale. -/
def avlSwap (s x : AVLState α β) : AVLState α β × AVLState α β := (x, s)

/-- The members of an `ft::Map` that the claims observe: the owned tree
and the element counter `_size` (map.hpp lines 82-87). -/
structure MapState (α β : Type) where
  tree : AVLState α β
  size : Nat
  deriving DecidableEq

/-- A freshly constructed map: `_size = 0`, empty tree.  (The `AVL`
constructor syncs the sentinel's `left` before `root` is initialised; we
model the intended/observed post-state `root = rpLeft = NULL`.) -/
def emptyMap : MapState α β := ⟨⟨NTree.nil, NTree.nil⟩, 0⟩

/-- `Map::insert(const value_type&)` (map.hpp lines 341-351): search
first, always delegate to the tree insert, then either report the
pre-existing node with `false` (no size change) or increment `_size` and
re-search for the new node.  The returned iterator is represented by the
pair stored in the node it references. -/
def mapInsert (m : MapState α β) (kv : α × β) :
    MapState α β × (Option (α × β) × Bool) :=
  let tmp := searchT m.tree.root kv.1
  let s' := avlInsert m.tree kv.1 kv.2
  match tmp with
  | some p => (⟨s', m.size⟩, (some p, false))
  | none => (⟨s', m.size + 1⟩, (searchT s'.root kv.1, true))

/-- The mutation performed by writing through the reference returned by
`Map::operator[]` (map.hpp lines 320-323): the reference points at the
mapped value inside the node holding an equivalent key, so the write
replaces exactly that node's mapped value. -/
def setVal : NTree α β → α → β → NTree α β
  | NTree.nil, _, _ => NTree.nil
  | NTree.node l tk tv h r, k, v =>
    if is_equal tk k then NTree.node l tk v h r
    else if tk < k then NTree.node l tk tv h (setVal r k v)
    else NTree.node (setVal l k v) tk tv h r

/-- `m[k] = v`: `Map::operator[]` inserts a default-constructed mapped
value under `k` (via `Map::insert`), then the assignment writes `v`
through the returned reference. -/
def mapBracketAssign [Inhabited β] (m : MapState α β) (k : α) (v : β) :
    MapState α β :=
  let m' := (mapInsert m (k, (default : β))).1
  let t' := setVal m'.tree.root k v
  ⟨⟨t', t'⟩, m'.size⟩

/-- `Map::erase(const key_type&)` (map.hpp lines 417-426): only if the
key is found, delete it and decrement `_size` (`_size ≥ 1` whenever the
search succeeds in a well-formed state, so `Nat` subtraction is exact);
returns the number of erased elements. -/
def mapEraseKey (m : MapState α β) (k : α) : MapState α β × Nat :=
  match searchT m.tree.root k with
  | some _ => (⟨avlDelete m.tree k, m.size - 1⟩, 1)
  | none => (m, 0)

/-- `Map::erase(iterator)` (map.hpp lines 401-408), where `k` is the key
stored at the iterator's node (`(*position).first`). -/
def mapEraseIter (m : MapState α β) (k : α) : MapState α β :=
  match searchT m.tree.root k with
  | some _ => ⟨avlDelete m.tree k, m.size - 1⟩
  | none => m

/-- `Map::erase(iterator, iterator)` (map.hpp lines 436-445): the keys of
the range are materialized first (into an `ft::Vector`), then each is
erased through `Map::erase(const key_type&)`.  `ks` is the materialized
key list. -/
def mapEraseRange (m : MapState α β) (ks : List α) : MapState α β :=
  ks.foldl (fun mm k => (mapEraseKey mm k).1) m

/-- `Map::clear()` (map.hpp lines 470-473): `erase(begin(), end())`; the
iterator walk over the whole container materializes the in-order key
sequence. -/
def mapClear (m : MapState α β) : MapState α β :=
  mapEraseRange m (keys m.tree.root)

/-- `Map::swap` (map.hpp lines 457-463): member-wise `std::swap` of
`_size` and `AVL::swap` of the trees. -/
def mapSwap (m x : MapState α β) : MapState α β × MapState α β :=
  (⟨x.tree, x.size⟩, ⟨m.tree, m.size⟩)

/-- `Map::operator=` (map.hpp lines 707-715): assign the tree
(`AVL::operator=`) and copy `_size`. -/
def mapAssign (m x : MapState α β) : MapState α β :=
  ⟨avlAssign m.tree x.tree, x.size⟩

/-- `Map::insert(iterator, const value_type&)` (map.hpp lines 367-371):
the hint is cast to void and the single-argument insert is called; the
result is its `.first`. -/
def mapInsertHint (_position : Option (α × β)) (m : MapState α β)
    (kv : α × β) : MapState α β × Option (α × β) :=
  ((mapInsert m kv).1, ((mapInsert m kv).2).1)

/-- An iterator value, identified by the node it references: the `NULL`
node, the sentinel `root_parent`, or a data node (represented by its
stored pair; keys are unique, so this determines the node). -/
inductive MapIter (α β : Type) : Type where
  | nullIter : MapIter α β
  | sentinelIter : MapIter α β
  | dataIter (kv : α × β) : MapIter α β
  deriving DecidableEq

/-- Leftmost stored pair, if any (`root->minimum_node()` with a `NULL`
root propagating `NULL`). -/
def minKV : NTree α β → Option (α × β)
  | NTree.nil => none
  | NTree.node l k v _ _ =>
    match l with
    | NTree.nil => some (k, v)
    | _ => minKV l

/-- `Map::begin()` (map.hpp lines 150-153): the tree's minimum node. -/
def mapBegin (m : MapState α β) : MapIter α β :=
  match minKV m.tree.root with
  | none => MapIter.nullIter
  | some p => MapIter.dataIter p

/-- `Map::end()` (map.hpp lines 180-188): the sentinel `root_parent` when
`_size ≠ 0`, otherwise an iterator at `root`. -/
def mapEnd (m : MapState α β) : MapIter α β :=
  if m.size ≠ 0 then MapIter.sentinelIter
  else
    match m.tree.root with
    | NTree.nil => MapIter.nullIter
    | NTree.node _ k v _ _ => MapIter.dataIter (k, v)

/-- The mutating `ft::Map` operations.  `eraseByIter` carries the key at
the iterator's node; `eraseRange` carries the materialized key list of
the range; `swapWith`/`assignFrom` carry the partner map. -/
inductive MapOp (α β : Type) : Type where
  | insertOp (kv : α × β) : MapOp α β
  | bracketAssign (k : α) (v : β) : MapOp α β
  | eraseByKey (k : α) : MapOp α β
  | eraseByIter (k : α) : MapOp α β
  | eraseRange (ks : List α) : MapOp α β
  | clearOp : MapOp α β
  | swapWith (x : MapState α β) : MapOp α β
  | assignFrom (x : MapState α β) : MapOp α β

/-- Apply one mutating map operation. -/
def applyOp [Inhabited β] (m : MapState α β) : MapOp α β → MapState α β
  | MapOp.insertOp kv => (mapInsert m kv).1
  | MapOp.bracketAssign k v => mapBracketAssign m k v
  | MapOp.eraseByKey k => (mapEraseKey m k).1
  | MapOp.eraseByIter k => mapEraseIter m k
  | MapOp.eraseRange ks => mapEraseRange m ks
  | MapOp.clearOp => mapClear m
  | MapOp.swapWith x => (mapSwap m x).1
  | MapOp.assignFrom x => mapAssign m x

/-- Apply a sequence of mutating map operations, first to last. -/
def applyOps [Inhabited β] (ops : List (MapOp α β)) (m : MapState α β) :
    MapState α β :=
  ops.foldl applyOp m

namespace NTree

variable {γ : Type}

omit [LinearOrder α] in
@[simp] theorem toList_nil :
    toList (nil : NTree α β) = [] := rfl

omit [LinearOrder α] in
@[simp] theorem toList_node (l : NTree α β) (k v h r) :
    toList (node l k v h r) = toList l ++ (k, v) :: toList r := rfl

omit [LinearOrder α] in
@[simp] theorem toList_updH (t : NTree α β) :
    toList (updH t) = toList t := by
  cases t <;> rfl

omit [LinearOrder α] in
theorem toList_left_rotation (t : NTree α β) :
    toList (left_rotation t) = toList t := by
  match t with
  | nil => rfl
  | node l k v h nil => rfl
  | node l k v h (node rl rk rv rh rr) =>
    simp [left_rotation, toList]

omit [LinearOrder α] in
theorem toList_right_rotation (t : NTree α β) :
    toList (right_rotation t) = toList t := by
  match t with
  | nil => rfl
  | node nil k v h r => rfl
  | node (node ll lk lv lh lr) k v h r =>
    simp [right_rotation, toList]

omit [LinearOrder α] in
theorem toList_balance_tree (t : NTree α β) :
    toList (balance_tree t) = toList t := by
  match t with
  | nil => rfl
  | node l k v h r =>
    simp only [balance_tree]
    repeat' split
    all_goals
      simp [toList_left_rotation, toList_right_rotation, toList]

omit [LinearOrder α] in
@[simp] theorem keys_nil : keys (nil : NTree α β) = [] := rfl

omit [LinearOrder α] in
@[simp] theorem keys_node (l : NTree α β) (k v h r) :
    keys (node l k v h r) = keys l ++ k :: keys r := by
  simp [keys, toList]

omit [LinearOrder α] in
theorem keys_eq_map (t : NTree α β) :
    keys t = (toList t).map Prod.fst := rfl

/-- The binary-search-tree ordering invariant, phrased on the in-order
listing: the keys are strictly increasing. -/
def SortedT (t : NTree α β) : Prop := (keys t).Pairwise (· < ·)

instance (t : NTree α β) : Decidable (SortedT t) :=
  inferInstanceAs (Decidable ((keys t).Pairwise _))

/-- Insertion of a pair into a key-sorted association list, before the
first entry whose key is not smaller; an entry with an equivalent key
leaves the list unchanged.  This is the reference behaviour of `insertT`
on ordered trees. -/
def insList : List (α × β) → α → β → List (α × β)
  | [], k, v => [(k, v)]
  | p :: ps, k, v =>
    if k < p.1 then (k, v) :: p :: ps
    else if p.1 < k then p :: insList ps k v
    else p :: ps

theorem insList_append_of_lt {L M : List (α × β)} {k : α} (v : β)
    (h : ∀ q ∈ L, q.1 < k) :
    insList (L ++ M) k v = L ++ insList M k v := by
  induction L with
  | nil => simp
  | cons p ps ih =>
    have hp : p.1 < k := h p (List.mem_cons_self ..)
    simp only [List.cons_append, insList, if_neg (lt_asymm hp), if_pos hp]
    exact congrArg (List.cons p) (ih fun q hq => h q (List.mem_cons_of_mem _ hq))

theorem insList_append_of_gt {M : List (α × β)} (L : List (α × β)) {k : α}
    (v : β) (h : ∀ q ∈ M, k < q.1) :
    insList (L ++ M) k v = insList L k v ++ M := by
  induction L with
  | nil =>
    cases M with
    | nil => rfl
    | cons p ps =>
      simp only [List.nil_append, insList,
        if_pos (h p (List.mem_cons_self ..))]
      rfl
  | cons p ps ih =>
    rcases lt_trichotomy k p.1 with hc | hc | hc
    · simp [insList, if_pos hc]
    · simp [insList, if_neg (hc ▸ lt_irrefl k), hc]
    · simp only [List.cons_append, insList, if_neg (lt_asymm hc), if_pos hc]
      exact congrArg (List.cons p) ih

theorem insList_eq_self {L : List (α × β)} {k : α} (v : β)
    (hs : (L.map Prod.fst).Pairwise (· < ·)) (hm : k ∈ L.map Prod.fst) :
    insList L k v = L := by
  induction L with
  | nil => simp at hm
  | cons p ps ih =>
    simp only [List.map_cons, List.pairwise_cons] at hs
    rcases List.mem_cons.mp hm with hk | hk
    · subst hk
      simp [insList, lt_irrefl]
    · have hlt : p.1 < k := hs.1 k hk
      simp only [insList, if_neg (lt_asymm hlt), if_pos hlt]
      rw [ih hs.2 hk]

theorem mem_insList_keys {L : List (α × β)} {k k' : α} (v : β) :
    k' ∈ (insList L k v).map Prod.fst ↔ k' ∈ L.map Prod.fst ∨ k' = k := by
  induction L with
  | nil => simp [insList]
  | cons p ps ih =>
    rcases lt_trichotomy k p.1 with hc | hc | hc
    · simp only [insList, if_pos hc, List.map_cons, List.mem_cons]
      tauto
    · subst hc
      simp only [insList, if_neg (lt_irrefl _), List.map_cons, List.mem_cons]
      tauto
    · simp only [insList, if_neg (lt_asymm hc), if_pos hc, List.map_cons,
        List.mem_cons, ih]
      tauto

theorem length_insList_of_not_mem {L : List (α × β)} {k : α} (v : β)
    (hm : k ∉ L.map Prod.fst) :
    (insList L k v).length = L.length + 1 := by
  induction L with
  | nil => rfl
  | cons p ps ih =>
    simp only [List.map_cons, List.mem_cons, not_or] at hm
    rcases lt_trichotomy k p.1 with hc | hc | hc
    · simp [insList, if_pos hc]
    · exact absurd hc hm.1
    · simp only [insList, if_neg (lt_asymm hc), if_pos hc, List.length_cons]
      rw [ih hm.2]

theorem pairwise_insList {L : List (α × β)} {k : α} (v : β)
    (hs : (L.map Prod.fst).Pairwise (· < ·)) :
    ((insList L k v).map Prod.fst).Pairwise (· < ·) := by
  induction L with
  | nil => simp [insList]
  | cons p ps ih =>
    simp only [List.map_cons, List.pairwise_cons] at hs
    rcases lt_trichotomy k p.1 with hc | hc | hc
    · simp only [insList, if_pos hc, List.map_cons, List.pairwise_cons]
      refine ⟨?_, ?_, hs.2⟩
      · intro a ha
        rcases List.mem_cons.mp ha with h | h
        · exact h ▸ hc
        · exact hc.trans (hs.1 a h)
      · exact hs.1
    · subst hc
      simp only [insList, if_neg (lt_irrefl _), List.map_cons,
        List.pairwise_cons]
      exact ⟨hs.1, hs.2⟩
    · simp only [insList, if_neg (lt_asymm hc), if_pos hc, List.map_cons,
        List.pairwise_cons]
      refine ⟨?_, ih hs.2⟩
      intro a ha
      rcases (mem_insList_keys v).mp ha with h | h
      · exact hs.1 a h
      · exact h ▸ hc

/-- On a key-ordered tree, the recursive tree insert realizes sorted-list
insertion on the in-order listing. -/
theorem toList_insertT (t : NTree α β) (k : α) (v : β) (hs : SortedT t) :
    toList (insertT t k v) = insList (toList t) k v := by
  induction t with
  | nil => rfl
  | node l tk tv hh r ihl ihr =>
    have hsplit := hs
    unfold SortedT at hsplit
    rw [keys_node, List.pairwise_append] at hsplit
    obtain ⟨hl, hmid, hcross⟩ := hsplit
    rw [List.pairwise_cons] at hmid
    obtain ⟨htkr, hr⟩ := hmid
    have hltk : ∀ q ∈ toList l, q.1 < tk := fun q hq =>
      hcross q.1 (List.mem_map_of_mem _ hq) tk (List.mem_cons_self ..)
    have hrtk : ∀ q ∈ toList r, tk < q.1 := fun q hq =>
      htkr q.1 (List.mem_map_of_mem _ hq)
    by_cases heq : is_equal tk k
    · have hk : tk = k := (is_equal_iff tk k).mp heq
      subst hk
      rw [insertT, if_pos heq, toList_node,
        insList_append_of_lt v (fun q hq => hltk q hq),
        insList, if_neg (lt_irrefl tk), if_neg (lt_irrefl tk)]
    · have hne : tk ≠ k := fun h =>
        heq ((is_equal_iff tk k).mpr h)
      by_cases hlt : tk < k
      · rw [insertT, if_neg (by simp [heq]), if_pos hlt, toList_balance_tree,
          toList_updH, toList_node, toList_node,
          ihr (by exact hr),
          insList_append_of_lt v (fun q hq => (hltk q hq).trans hlt),
          insList, if_neg (lt_asymm hlt), if_pos hlt]
      · have hklt : k < tk := lt_of_le_of_ne (le_of_not_lt hlt) fun h =>
          hne h.symm
        rw [insertT, if_neg (by simp [heq]), if_neg hlt, toList_balance_tree,
          toList_updH, toList_node, toList_node,
          ihl (by exact hl),
          insList_append_of_gt (toList l) v ?side]
        case side =>
          intro q hq
          rcases List.mem_cons.mp hq with h | h
          · exact h ▸ hklt
          · exact hklt.trans (hrtk q h)

theorem sortedT_insertT (t : NTree α β) (k : α) (v : β) (hs : SortedT t) :
    SortedT (insertT t k v) := by
  unfold SortedT
  rw [keys_eq_map, toList_insertT t k v hs]
  exact pairwise_insList v hs

theorem toList_insertT_mem (t : NTree α β) (k : α) (v : β) (hs : SortedT t)
    (hm : k ∈ keys t) : toList (insertT t k v) = toList t := by
  rw [toList_insertT t k v hs]
  exact insList_eq_self v hs hm

theorem length_insertT_not_mem (t : NTree α β) (k : α) (v : β)
    (hs : SortedT t) (hm : k ∉ keys t) :
    (toList (insertT t k v)).length = (toList t).length + 1 := by
  rw [toList_insertT t k v hs]
  exact length_insList_of_not_mem v hm

theorem mem_keys_insertT (t : NTree α β) (k k' : α) (v : β)
    (hs : SortedT t) :
    k' ∈ keys (insertT t k v) ↔ k' ∈ keys t ∨ k' = k := by
  rw [keys_eq_map, toList_insertT t k v hs]
  exact mem_insList_keys v

/-- Removal of the first entry with key `k` from an association list.
This is the reference behaviour of `deleteT` on ordered trees. -/
def delList : List (α × β) → α → List (α × β)
  | [], _ => []
  | p :: ps, k => if p.1 = k then ps else p :: delList ps k

theorem delList_eq_self {L : List (α × β)} {k : α}
    (hm : k ∉ L.map Prod.fst) : delList L k = L := by
  induction L with
  | nil => rfl
  | cons p ps ih =>
    simp only [List.map_cons, List.mem_cons, not_or] at hm
    have hne : p.1 ≠ k := fun h => hm.1 h.symm
    simp only [delList, if_neg hne]
    rw [ih hm.2]

theorem delList_append_of_ne {L : List (α × β)} (M : List (α × β)) {k : α}
    (h : ∀ q ∈ L, q.1 ≠ k) :
    delList (L ++ M) k = L ++ delList M k := by
  induction L with
  | nil => rfl
  | cons p ps ih =>
    simp only [List.cons_append, delList,
      if_neg (h p (List.mem_cons_self ..))]
    exact congrArg (List.cons p) (ih fun q hq => h q (List.mem_cons_of_mem _ hq))

theorem delList_append_of_mem {L : List (α × β)} (M : List (α × β)) {k : α}
    (h : k ∈ L.map Prod.fst) :
    delList (L ++ M) k = delList L k ++ M := by
  induction L with
  | nil => simp at h
  | cons p ps ih =>
    by_cases hp : p.1 = k
    · simp [delList, if_pos hp]
    · have : k ∈ ps.map Prod.fst := by
        rcases List.mem_cons.mp h with h' | h'
        · exact absurd h'.symm hp
        · exact h'
      simp only [List.cons_append, delList, if_neg hp]
      exact congrArg (List.cons p) (ih this)

theorem delList_sublist (L : List (α × β)) (k : α) :
    (delList L k).Sublist L := by
  induction L with
  | nil => exact List.Sublist.refl _
  | cons p ps ih =>
    by_cases hp : p.1 = k
    · simp only [delList, if_pos hp]
      exact (List.Sublist.refl ps).cons p
    · simp only [delList, if_neg hp]
      exact ih.cons₂ p

theorem length_delList_of_mem {L : List (α × β)} {k : α}
    (h : k ∈ L.map Prod.fst) :
    (delList L k).length + 1 = L.length := by
  induction L with
  | nil => simp at h
  | cons p ps ih =>
    by_cases hp : p.1 = k
    · simp [delList, if_pos hp]
    · have : k ∈ ps.map Prod.fst := by
        rcases List.mem_cons.mp h with h' | h'
        · exact absurd h'.symm hp
        · exact h'
      simp only [delList, if_neg hp, List.length_cons]
      rw [← ih this]

theorem mem_delList_keys {L : List (α × β)} {k k' : α}
    (hnd : (L.map Prod.fst).Nodup) :
    k' ∈ (delList L k).map Prod.fst ↔ k' ∈ L.map Prod.fst ∧ k' ≠ k := by
  induction L with
  | nil => simp [delList]
  | cons p ps ih =>
    simp only [List.map_cons, List.nodup_cons] at hnd
    by_cases hp : p.1 = k
    · subst hp
      simp only [delList, if_pos rfl, List.map_cons, List.mem_cons]
      constructor
      · intro h
        exact ⟨Or.inr h, fun he => hnd.1 (he ▸ h)⟩
      · rintro ⟨h | h, hne⟩
        · exact absurd h hne
        · exact h
    · simp only [delList, if_neg hp, List.map_cons, List.mem_cons,
        ih hnd.2]
      constructor
      · rintro (h | ⟨h, hne⟩)
        · exact ⟨Or.inl h, fun he => hp (h ▸ he)⟩
        · exact ⟨Or.inr h, hne⟩
      · rintro ⟨h | h, hne⟩
        · exact Or.inl h
        · exact Or.inr ⟨h, hne⟩

omit [LinearOrder α] in
theorem toList_eq_nil_iff (t : NTree α β) : toList t = [] ↔ t = nil := by
  cases t with
  | nil => simp
  | node l k v h r => simp [toList]

omit [LinearOrder α] in
theorem toList_rebalanceNN (t : NTree α β) :
    toList (rebalanceNN t) = toList t := by
  cases t with
  | nil => rfl
  | node l k v h r =>
    simp [rebalanceNN, toList_balance_tree]

omit [LinearOrder α] in
theorem minKVD_head (t : NTree α β) (d : α × β) (ht : t ≠ nil) :
    some (minKVD t d) = (toList t).head? := by
  induction t generalizing d with
  | nil => exact absurd rfl ht
  | node l k v h r ihl ihr =>
    cases l with
    | nil => simp [minKVD, toList]
    | node ll lk lv lh lr =>
      have hl : (node ll lk lv lh lr : NTree α β) ≠ nil := by simp
      have ih' := ihl (k, v) hl
      have step : minKVD (node (node ll lk lv lh lr) k v h r) d
          = minKVD (node ll lk lv lh lr) (k, v) := rfl
      rw [step, toList_node, ih']
      cases htl : toList (node ll lk lv lh lr) with
      | nil => exact absurd ((toList_eq_nil_iff _).mp htl) hl
      | cons a as => simp

/-- On a key-ordered tree, the recursive tree delete realizes first-match
removal on the in-order listing. -/
theorem toList_deleteT (t : NTree α β) (k : α) (hs : SortedT t) :
    toList (deleteT t k) = delList (toList t) k := by
  induction t generalizing k with
  | nil => rfl
  | node l tk tv hh r ihl ihr =>
    have hsplit := hs
    unfold SortedT at hsplit
    rw [keys_node, List.pairwise_append] at hsplit
    obtain ⟨hl, hmid, hcross⟩ := hsplit
    rw [List.pairwise_cons] at hmid
    obtain ⟨htkr, hr⟩ := hmid
    have hsl : SortedT l := hl
    have hsr : SortedT r := hr
    have hltk : ∀ q ∈ toList l, q.1 < tk := fun q hq =>
      hcross q.1 (List.mem_map_of_mem _ hq) tk (List.mem_cons_self ..)
    have hrtk : ∀ q ∈ toList r, tk < q.1 := fun q hq =>
      htkr q.1 (List.mem_map_of_mem _ hq)
    by_cases heq : is_equal tk k
    · have hk : tk = k := (is_equal_iff tk k).mp heq
      subst hk
      simp only [deleteT, if_pos heq]
      cases l with
      | nil =>
        cases r with
        | nil => simp [rebalanceNN, delList]
        | node rl rk rv rh rr =>
          simp [toList_rebalanceNN, delList]
      | node ll lk lv lh lr =>
        cases r with
        | nil =>
          rw [toList_rebalanceNN, toList_node, toList_node,
            delList_append_of_ne _ (fun q hq => ne_of_lt (hltk q hq)),
            delList, if_pos rfl]
          simp [toList]
        | node rl rk rv rh rr =>
          have hrne : (node rl rk rv rh rr : NTree α β) ≠ nil := by simp
          have hmhead := minKVD_head (node rl rk rv rh rr) (tk, tv) hrne
          rw [toList_rebalanceNN, toList_node, ihr _ hsr]
          conv_rhs => rw [toList_node]
          rw [delList_append_of_ne _ (fun q hq => ne_of_lt (hltk q hq)),
            delList, if_pos rfl]
          cases hlist : toList (node rl rk rv rh rr) with
          | nil => exact absurd ((toList_eq_nil_iff _).mp hlist) hrne
          | cons a as =>
            rw [hlist] at hmhead
            have hma : minKVD (node rl rk rv rh rr) (tk, tv) = a :=
              Option.some_injective _ (by simpa using hmhead)
            rw [hma, delList, if_pos rfl]
    · have hne : tk ≠ k := fun h => heq ((is_equal_iff tk k).mpr h)
      by_cases hlt : tk < k
      · simp only [deleteT, if_neg heq, if_pos hlt]
        rw [toList_rebalanceNN, toList_node, toList_node,
          ihr _ hsr,
          delList_append_of_ne _ (fun q hq => ne_of_lt ((hltk q hq).trans hlt)),
          delList, if_neg hne]
      · have hklt : k < tk := lt_of_le_of_ne (le_of_not_lt hlt) fun h =>
          hne h.symm
        simp only [deleteT, if_neg heq, if_neg hlt]
        rw [toList_rebalanceNN, toList_node, toList_node, ihl _ hsl]
        by_cases hmem : k ∈ (toList l).map Prod.fst
        · rw [delList_append_of_mem _ hmem]
        · have hne' : ∀ q ∈ toList l, q.1 ≠ k := by
            intro q hq hq'
            exact hmem (hq' ▸ List.mem_map_of_mem Prod.fst hq)
          have hnr : k ∉ (toList r).map Prod.fst := by
            intro hk
            rcases List.mem_map.mp hk with ⟨q, hq, hq'⟩
            exact absurd (hq' ▸ hrtk q hq) (lt_asymm hklt)
          rw [delList_eq_self hmem, delList_append_of_ne _ hne',
            delList, if_neg hne, delList_eq_self hnr]

theorem sortedT_deleteT (t : NTree α β) (k : α) (hs : SortedT t) :
    SortedT (deleteT t k) := by
  unfold SortedT
  rw [keys_eq_map, toList_deleteT t k hs]
  exact hs.sublist ((delList_sublist (toList t) k).map Prod.fst)

theorem length_deleteT_of_mem (t : NTree α β) (k : α) (hs : SortedT t)
    (hm : k ∈ keys t) :
    (toList (deleteT t k)).length + 1 = (toList t).length := by
  rw [toList_deleteT t k hs]
  exact length_delList_of_mem hm

theorem mem_keys_deleteT (t : NTree α β) (k k' : α) (hs : SortedT t) :
    k' ∈ keys (deleteT t k) ↔ k' ∈ keys t ∧ k' ≠ k := by
  rw [keys_eq_map, toList_deleteT t k hs]
  exact mem_delList_keys (hs.imp ne_of_lt)

/-- On a key-ordered tree, the binary search realizes first-match lookup
on the in-order listing. -/
theorem searchT_eq_find? (t : NTree α β) (k : α) (hs : SortedT t) :
    searchT t k = (toList t).find? (fun p => decide (p.1 = k)) := by
  induction t generalizing k with
  | nil => rfl
  | node l tk tv hh r ihl ihr =>
    have hsplit := hs
    unfold SortedT at hsplit
    rw [keys_node, List.pairwise_append] at hsplit
    obtain ⟨hl, hmid, hcross⟩ := hsplit
    rw [List.pairwise_cons] at hmid
    obtain ⟨htkr, hr⟩ := hmid
    have hltk : ∀ q ∈ toList l, q.1 < tk := fun q hq =>
      hcross q.1 (List.mem_map_of_mem _ hq) tk (List.mem_cons_self ..)
    have hrtk : ∀ q ∈ toList r, tk < q.1 := fun q hq =>
      htkr q.1 (List.mem_map_of_mem _ hq)
    rw [toList_node, List.find?_append]
    by_cases heq : is_equal tk k
    · have hk : tk = k := (is_equal_iff tk k).mp heq
      subst hk
      have hnone : (toList l).find? (fun p => decide (p.1 = tk)) = none :=
        List.find?_eq_none.mpr fun q hq => by
          simpa using ne_of_lt (hltk q hq)
      rw [searchT, if_pos heq, hnone]
      simp [List.find?_cons]
    · have hne : tk ≠ k := fun h => heq ((is_equal_iff tk k).mpr h)
      by_cases hlt : tk < k
      · have hnone : (toList l).find? (fun p => decide (p.1 = k)) = none :=
          List.find?_eq_none.mpr fun q hq => by
            simpa using ne_of_lt ((hltk q hq).trans hlt)
        rw [searchT, if_neg heq, if_pos hlt, hnone, ihr k hr]
        simp [List.find?_cons, hne]
      · have hklt : k < tk := lt_of_le_of_ne (le_of_not_lt hlt) fun h =>
          hne h.symm
        have hnone : ((tk, tv) :: toList r).find?
            (fun p => decide (p.1 = k)) = none :=
          List.find?_eq_none.mpr fun q hq => by
            rcases List.mem_cons.mp hq with h | h
            · simpa [h] using hne
            · simpa using (ne_of_lt (hklt.trans (hrtk q h))).symm
        rw [searchT, if_neg heq, if_neg hlt, hnone, ihl k hl]
        cases hfl : (toList l).find? (fun p => decide (p.1 = k)) <;> rfl

theorem find?_of_mem_nodup {L : List (α × β)} {k : α} {v : β}
    (hnd : (L.map Prod.fst).Nodup) (hm : (k, v) ∈ L) :
    L.find? (fun p => decide (p.1 = k)) = some (k, v) := by
  induction L with
  | nil => simp at hm
  | cons p ps ih =>
    simp only [List.map_cons, List.nodup_cons] at hnd
    by_cases hp : p.1 = k
    · have hpv : p = (k, v) := by
        rcases List.mem_cons.mp hm with h | h
        · exact h.symm
        · exact absurd (hp ▸ List.mem_map_of_mem Prod.fst h)
            (by simpa [hp] using hnd.1)
      simp [List.find?_cons, hp, hpv]
    · have hm' : (k, v) ∈ ps := by
        rcases List.mem_cons.mp hm with h | h
        · exact absurd (congrArg Prod.fst h).symm hp
        · exact h
      simpa [List.find?_cons, hp] using ih hnd.2 hm'

theorem searchT_of_mem (t : NTree α β) (k : α) (v : β) (hs : SortedT t)
    (hm : (k, v) ∈ toList t) : searchT t k = some (k, v) := by
  rw [searchT_eq_find? t k hs]
  exact find?_of_mem_nodup (hs.imp ne_of_lt) hm

theorem searchT_isSome_iff (t : NTree α β) (k : α) (hs : SortedT t) :
    (searchT t k).isSome = true ↔ k ∈ keys t := by
  rw [searchT_eq_find? t k hs, List.find?_isSome, keys_eq_map]
  constructor
  · rintro ⟨q, hq, hq'⟩
    simp only [decide_eq_true_eq] at hq'
    exact hq' ▸ List.mem_map_of_mem _ hq
  · intro hk
    rcases List.mem_map.mp hk with ⟨q, hq, hq'⟩
    exact ⟨q, hq, by simpa using hq'⟩

theorem searchT_eq_none_iff (t : NTree α β) (k : α) (hs : SortedT t) :
    searchT t k = none ↔ k ∉ keys t := by
  rw [← searchT_isSome_iff t k hs]
  cases searchT t k <;> simp

/-- On a key-ordered tree, `lower_bound` returns the first in-order node
whose key is not ordered strictly before `k`. -/
theorem lower_boundT_eq_find? (t : NTree α β) (k : α) (hs : SortedT t) :
    lower_boundT t k = (toList t).find? (fun p => decide (¬ p.1 < k)) := by
  induction t generalizing k with
  | nil => rfl
  | node l tk tv hh r ihl ihr =>
    have hsplit := hs
    unfold SortedT at hsplit
    rw [keys_node, List.pairwise_append] at hsplit
    obtain ⟨hl, hmid, hcross⟩ := hsplit
    rw [List.pairwise_cons] at hmid
    obtain ⟨htkr, hr⟩ := hmid
    have hltk : ∀ q ∈ toList l, q.1 < tk := fun q hq =>
      hcross q.1 (List.mem_map_of_mem _ hq) tk (List.mem_cons_self ..)
    have hrtk : ∀ q ∈ toList r, tk < q.1 := fun q hq =>
      htkr q.1 (List.mem_map_of_mem _ hq)
    rw [toList_node, List.find?_append]
    by_cases heq : is_equal tk k
    · have hk : tk = k := (is_equal_iff tk k).mp heq
      subst hk
      have hnone : (toList l).find? (fun p => decide (¬ p.1 < tk)) = none :=
        List.find?_eq_none.mpr fun q hq => by simpa using hltk q hq
      rw [lower_boundT, if_pos heq, hnone]
      simp [List.find?_cons]
    · have hne : tk ≠ k := fun h => heq ((is_equal_iff tk k).mpr h)
      by_cases hklt : k < tk
      · rw [lower_boundT, if_neg heq]
        simp only [if_pos hklt]
        rw [ihl k hl]
        cases hlb : (toList l).find? (fun p => decide (¬ p.1 < k)) with
        | none =>
          have h1 : ¬ tk < k := lt_asymm hklt
          simp [List.find?_cons, h1, le_of_lt hklt]
        | some m =>
          have hm : m ∈ toList l := List.mem_of_find?_eq_some hlb
          have hc : is_equal m.1 k = true ∨ m.1 < tk := Or.inr (hltk m hm)
          simp [hc]
      · have htklt : tk < k := lt_of_le_of_ne (le_of_not_lt hklt) hne
        have hnonel : (toList l).find? (fun p => decide (¬ p.1 < k)) = none :=
          List.find?_eq_none.mpr fun q hq => by
            simpa using (hltk q hq).trans htklt
        have hroot : ((tk, tv) :: toList r).find?
              (fun p => decide (¬ p.1 < k))
            = (toList r).find? (fun p => decide (¬ p.1 < k)) := by
          simp [List.find?_cons, htklt]
        rw [lower_boundT, if_neg heq]
        simp only [if_neg hklt]
        rw [ihr k hr, hnonel, hroot]
        cases hrb : (toList r).find? (fun p => decide (¬ p.1 < k)) with
        | none => simp [htklt]
        | some m =>
          by_cases hcond : is_equal m.1 k ∨ m.1 < tk
          · simp [hcond]
          · simp [hcond, htklt]

/-- On a key-ordered tree, `upper_bound` returns the first in-order node
whose key is ordered strictly after `k`. -/
theorem upper_boundT_eq_find? (t : NTree α β) (k : α) (hs : SortedT t) :
    upper_boundT t k = (toList t).find? (fun p => decide (k < p.1)) := by
  induction t generalizing k with
  | nil => rfl
  | node l tk tv hh r ihl ihr =>
    have hsplit := hs
    unfold SortedT at hsplit
    rw [keys_node, List.pairwise_append] at hsplit
    obtain ⟨hl, hmid, hcross⟩ := hsplit
    rw [List.pairwise_cons] at hmid
    obtain ⟨htkr, hr⟩ := hmid
    have hltk : ∀ q ∈ toList l, q.1 < tk := fun q hq =>
      hcross q.1 (List.mem_map_of_mem _ hq) tk (List.mem_cons_self ..)
    have hrtk : ∀ q ∈ toList r, tk < q.1 := fun q hq =>
      htkr q.1 (List.mem_map_of_mem _ hq)
    rw [toList_node, List.find?_append]
    by_cases hklt : k < tk
    · rw [upper_boundT]
      simp only [if_pos hklt]
      rw [ihl k hl]
      cases hlb : (toList l).find? (fun p => decide (k < p.1)) with
      | none => simp [List.find?_cons, hklt]
      | some m =>
        have hm : m ∈ toList l := List.mem_of_find?_eq_some hlb
        have hc : m.1 < tk := hltk m hm
        simp [hc]
    · have hnonel : (toList l).find? (fun p => decide (k < p.1)) = none :=
        List.find?_eq_none.mpr fun q hq => by
          have hq' : q.1 < tk := hltk q hq
          have h2 : ¬ k < q.1 := fun hc => hklt (hc.trans hq')
          simpa using h2
      have hroot : ((tk, tv) :: toList r).find? (fun p => decide (k < p.1))
          = (toList r).find? (fun p => decide (k < p.1)) := by
        simp [List.find?_cons, hklt]
      rw [upper_boundT]
      simp only [if_neg hklt]
      rw [ihr k hr, hnonel, hroot]
      cases hrb : (toList r).find? (fun p => decide (k < p.1)) with
      | none => simp [if_neg hklt]
      | some m =>
        have hm : m ∈ toList r := List.mem_of_find?_eq_some hrb
        have hc : ¬ m.1 < tk := lt_asymm (hrtk m hm)
        simp [hc, hklt]

omit [LinearOrder α] in
theorem cachedH_eq_real (t : NTree α β) (hh : heightsOK t) :
    cachedH t = realHeight t := by
  cases t with
  | nil => rfl
  | node l k v h r =>
    simp only [heightsOK, Bool.and_eq_true, decide_eq_true_eq] at hh
    simpa [cachedH, realHeight] using hh.1.1

omit [LinearOrder α] in
theorem updH_of_heightsOK (t : NTree α β) (hh : heightsOK t) :
    updH t = t := by
  cases t with
  | nil => rfl
  | node l k v h r =>
    have hc := hh
    simp only [heightsOK, Bool.and_eq_true, decide_eq_true_eq] at hc
    rw [updH, cachedH_eq_real l hc.1.2, cachedH_eq_real r hc.2, hc.1.1]

omit [LinearOrder α] in
theorem balance_tree_of_ok (t : NTree α β) (hh : heightsOK t)
    (hb : balancedB t) : balance_tree t = t := by
  cases t with
  | nil => rfl
  | node l k v h r =>
    simp only [heightsOK, Bool.and_eq_true, decide_eq_true_eq] at hh
    simp only [balancedB, Bool.and_eq_true, decide_eq_true_eq] at hb
    have hbal : (get_balance (node l k v h r)).natAbs ≠ 2 := by
      have h1 : get_balance (node l k v h r)
          = (realHeight l : Int) - realHeight r := by
        rw [get_balance, cachedH_eq_real l hh.1.2, cachedH_eq_real r hh.2]
      rw [h1]
      omega
    rw [balance_tree]
    simp only [if_pos hbal]

/-- On a well-formed tree (key-ordered, correct cached heights, balanced),
inserting a value whose key is already present returns the tree itself:
no overwrite of the mapped value, no new node, no structural change. -/
theorem insertT_of_mem_eq_self (t : NTree α β) (k : α) (v : β)
    (hs : SortedT t) (hh : heightsOK t) (hb : balancedB t)
    (hm : k ∈ keys t) : insertT t k v = t := by
  induction t with
  | nil => simp [keys, toList] at hm
  | node l tk tv hgt r ihl ihr =>
    have hsplit := hs
    unfold SortedT at hsplit
    rw [keys_node, List.pairwise_append] at hsplit
    obtain ⟨hl, hmid, hcross⟩ := hsplit
    rw [List.pairwise_cons] at hmid
    obtain ⟨htkr, hr⟩ := hmid
    have hhd := hh
    simp only [heightsOK, Bool.and_eq_true, decide_eq_true_eq] at hhd
    have hbd := hb
    simp only [balancedB, Bool.and_eq_true, decide_eq_true_eq] at hbd
    by_cases heq : is_equal tk k
    · rw [insertT, if_pos heq]
    · have hne : tk ≠ k := fun h => heq ((is_equal_iff tk k).mpr h)
      rw [keys_node] at hm
      by_cases hlt : tk < k
      · have hkr : k ∈ keys r := by
          rcases List.mem_append.mp hm with h | h
          · exact absurd (hcross k h tk (List.mem_cons_self ..))
              (lt_asymm hlt)
          · rcases List.mem_cons.mp h with h' | h'
            · exact absurd h'.symm hne
            · exact h'
        rw [insertT, if_neg heq, if_pos hlt,
          ihr hr hhd.2 hbd.2 hkr,
          updH_of_heightsOK _ hh, balance_tree_of_ok _ hh hb]
      · have hkl : k ∈ keys l := by
          rcases List.mem_append.mp hm with h | h
          · exact h
          · rcases List.mem_cons.mp h with h' | h'
            · exact absurd h'.symm hne
            · exact absurd (htkr k h') hlt
        rw [insertT, if_neg heq, if_neg hlt,
          ihl hl hhd.1.2 hbd.1.2 hkl,
          updH_of_heightsOK _ hh, balance_tree_of_ok _ hh hb]

end NTree

theorem keys_setVal (t : NTree α β) (k : α) (v : β) :
    (toList (setVal t k v)).map Prod.fst = (toList t).map Prod.fst := by
  induction t with
  | nil => rfl
  | node l tk tv h r ihl ihr =>
    by_cases heq : is_equal tk k
    · simp [setVal, if_pos heq, toList]
    · by_cases hlt : tk < k
      · simp [setVal, if_neg heq, if_pos hlt, toList, ihr]
      · simp [setVal, if_neg heq, if_neg hlt, toList, ihl]

theorem length_setVal (t : NTree α β) (k : α) (v : β) :
    (toList (setVal t k v)).length = (toList t).length := by
  induction t with
  | nil => rfl
  | node l tk tv h r ihl ihr =>
    by_cases heq : is_equal tk k
    · simp [setVal, if_pos heq, toList]
    · by_cases hlt : tk < k
      · simp [setVal, if_neg heq, if_pos hlt, toList, ihr]
      · simp [setVal, if_neg heq, if_neg hlt, toList, ihl]

/-- Writing through the `operator[]` reference stores the new mapped
value at the (unique) node with key `k`. -/
theorem find?_setVal (t : NTree α β) (k : α) (v : β) (hs : SortedT t)
    (hm : k ∈ keys t) :
    (toList (setVal t k v)).find? (fun p => decide (p.1 = k))
      = some (k, v) := by
  induction t with
  | nil => simp [keys, toList] at hm
  | node l tk tv h r ihl ihr =>
    have hsplit := hs
    unfold SortedT at hsplit
    rw [keys_node, List.pairwise_append] at hsplit
    obtain ⟨hl, hmid, hcross⟩ := hsplit
    rw [List.pairwise_cons] at hmid
    obtain ⟨htkr, hr⟩ := hmid
    have hltk : ∀ q ∈ toList l, q.1 < tk := fun q hq =>
      hcross q.1 (List.mem_map_of_mem _ hq) tk (List.mem_cons_self ..)
    have hrtk : ∀ q ∈ toList r, tk < q.1 := fun q hq =>
      htkr q.1 (List.mem_map_of_mem _ hq)
    rw [keys_node] at hm
    by_cases heq : is_equal tk k
    · have hk : tk = k := (is_equal_iff tk k).mp heq
      subst hk
      have hnone : (toList l).find? (fun p => decide (p.1 = tk)) = none :=
        List.find?_eq_none.mpr fun q hq => by
          simpa using ne_of_lt (hltk q hq)
      rw [setVal, if_pos heq, toList_node, List.find?_append, hnone]
      simp [List.find?_cons]
    · have hne : tk ≠ k := fun h => heq ((is_equal_iff tk k).mpr h)
      by_cases hlt : tk < k
      · have hkr : k ∈ keys r := by
          rcases List.mem_append.mp hm with h | h
          · exact absurd (hcross k h tk (List.mem_cons_self ..))
              (lt_asymm hlt)
          · rcases List.mem_cons.mp h with h' | h'
            · exact absurd h'.symm hne
            · exact h'
        have hnone : (toList l).find? (fun p => decide (p.1 = k)) = none :=
          List.find?_eq_none.mpr fun q hq => by
            simpa using ne_of_lt ((hltk q hq).trans hlt)
        rw [setVal, if_neg heq, if_pos hlt, toList_node, List.find?_append,
          hnone]
        simpa [List.find?_cons, hne] using ihr hr hkr
      · have hklt : k < tk := lt_of_le_of_ne (le_of_not_lt hlt) fun h =>
          hne h.symm
        have hkl : k ∈ keys l := by
          rcases List.mem_append.mp hm with h | h
          · exact h
          · rcases List.mem_cons.mp h with h' | h'
            · exact absurd h'.symm hne
            · exact absurd (htkr k h') (lt_asymm hklt)
        rw [setVal, if_neg heq, if_neg hlt, toList_node, List.find?_append,
          ihl hl hkl]
        rfl

/-- Map well-formedness: the tree is key-ordered and the cached `_size`
equals the number of stored nodes. -/
def MapWF (m : MapState α β) : Prop :=
  SortedT m.tree.root ∧ m.size = (toList m.tree.root).length

instance (m : MapState α β) : Decidable (MapWF m) :=
  inferInstanceAs (Decidable (_ ∧ _))

theorem emptyMap_wf : MapWF (emptyMap : MapState α β) := ⟨List.Pairwise.nil, rfl⟩

theorem mapInsert_fst_tree (m : MapState α β) (kv : α × β) :
    (mapInsert m kv).1.tree = avlInsert m.tree kv.1 kv.2 := by
  unfold mapInsert
  cases searchT m.tree.root kv.1 <;> rfl

theorem mapInsert_wf (m : MapState α β) (kv : α × β) (hw : MapWF m) :
    MapWF (mapInsert m kv).1 := by
  obtain ⟨hs, hsz⟩ := hw
  constructor
  · rw [mapInsert_fst_tree]
    exact sortedT_insertT _ _ _ hs
  · unfold mapInsert
    cases hsr : searchT m.tree.root kv.1 with
    | some p =>
      have hmem : kv.1 ∈ keys m.tree.root := by
        have := (searchT_isSome_iff m.tree.root kv.1 hs)
        rw [hsr] at this
        exact this.mp rfl
      simp only [avlInsert]
      rw [toList_insertT_mem _ _ _ hs hmem]
      exact hsz
    | none =>
      have hmem : kv.1 ∉ keys m.tree.root :=
        (searchT_eq_none_iff _ _ hs).mp hsr
      simp only [avlInsert]
      rw [length_insertT_not_mem _ _ _ hs hmem, hsz]

theorem mem_keys_mapInsert (m : MapState α β) (kv : α × β) (k' : α)
    (hs : SortedT m.tree.root) :
    k' ∈ keys (mapInsert m kv).1.tree.root
      ↔ k' ∈ keys m.tree.root ∨ k' = kv.1 := by
  rw [mapInsert_fst_tree]
  exact mem_keys_insertT _ _ _ _ hs

theorem mapEraseKey_wf (m : MapState α β) (k : α) (hw : MapWF m) :
    MapWF (mapEraseKey m k).1 := by
  obtain ⟨hs, hsz⟩ := hw
  unfold mapEraseKey
  cases hsr : searchT m.tree.root k with
  | none => exact ⟨hs, hsz⟩
  | some p =>
    have hmem : k ∈ keys m.tree.root := by
      have := searchT_isSome_iff m.tree.root k hs
      rw [hsr] at this
      exact this.mp rfl
    refine ⟨sortedT_deleteT _ _ hs, ?_⟩
    simp only [avlDelete]
    have hlen := length_deleteT_of_mem m.tree.root k hs hmem
    omega

theorem mapEraseIter_wf (m : MapState α β) (k : α) (hw : MapWF m) :
    MapWF (mapEraseIter m k) := by
  have h := mapEraseKey_wf m k hw
  unfold mapEraseKey at h
  unfold mapEraseIter
  cases hsr : searchT m.tree.root k with
  | none => rw [hsr] at h; exact h
  | some p => rw [hsr] at h; exact h

theorem mapEraseRange_wf (m : MapState α β) (ks : List α) (hw : MapWF m) :
    MapWF (mapEraseRange m ks) := by
  induction ks generalizing m with
  | nil => exact hw
  | cons k ks ih => exact ih _ (mapEraseKey_wf m k hw)

theorem mapClear_wf (m : MapState α β) (hw : MapWF m) :
    MapWF (mapClear m) := mapEraseRange_wf m _ hw

theorem mapBracketAssign_wf [Inhabited β] (m : MapState α β) (k : α)
    (v : β) (hw : MapWF m) : MapWF (mapBracketAssign m k v) := by
  have h1 := mapInsert_wf m (k, (default : β)) hw
  obtain ⟨hs1, hsz1⟩ := h1
  constructor
  · unfold MapState.tree
    unfold SortedT
    rw [keys_eq_map]
    show ((toList (setVal _ k v)).map Prod.fst).Pairwise (· < ·)
    rw [keys_setVal]
    exact hs1
  · show _ = (toList (setVal _ k v)).length
    rw [length_setVal]
    exact hsz1

theorem avlInsert_root (s : AVLState α β) (k : α) (v : β) :
    (avlInsert s k v).root = insertT s.root k v := rfl

/-- Re-inserting a subtree with pairwise distinct keys, disjoint from the
destination, grows the destination by exactly the subtree's node count and
takes the union of the key sets. -/
theorem copy_tree_wf (t : NTree α β) (s : AVLState α β)
    (hs : SortedT s.root) (hnd : (keys t).Nodup)
    (hdisj : ∀ k' ∈ keys t, k' ∉ keys s.root) :
    SortedT (copy_tree s t).root ∧
    (toList (copy_tree s t).root).length
      = (toList s.root).length + (toList t).length ∧
    (∀ k', k' ∈ keys (copy_tree s t).root ↔
      k' ∈ keys s.root ∨ k' ∈ keys t) := by
  induction t generalizing s with
  | nil =>
    exact ⟨hs, by simp [copy_tree, toList],
      fun k' => by simp [copy_tree, keys, toList]⟩
  | node l k v h r ihl ihr =>
    rw [keys_node] at hnd hdisj
    have hnd' := hnd
    rw [List.nodup_append] at hnd'
    obtain ⟨hndl, hndkr, hdisjlr⟩ := hnd'
    rw [List.nodup_cons] at hndkr
    obtain ⟨hkr, hndr⟩ := hndkr
    have hdr : ∀ k' ∈ keys r, k' ∉ keys s.root := fun k' hk' =>
      hdisj k' (List.mem_append.mpr (Or.inr (List.mem_cons_of_mem _ hk')))
    obtain ⟨hs1, hl1, hm1⟩ := ihr s hs hndr hdr
    have hdl : ∀ k' ∈ keys l, k' ∉ keys (copy_tree s r).root := by
      intro k' hk' hk''
      rcases (hm1 k').mp hk'' with hc | hc
      · exact hdisj k' (List.mem_append.mpr (Or.inl hk')) hc
      · exact hdisjlr hk' (List.mem_cons_of_mem _ hc)
    obtain ⟨hs2, hl2, hm2⟩ := ihl (copy_tree s r) hs1 hndl hdl
    have hknotin : k ∉ keys (copy_tree (copy_tree s r) l).root := by
      intro hk'
      rcases (hm2 k).mp hk' with hc | hc
      · rcases (hm1 k).mp hc with hc' | hc'
        · exact hdisj k
            (List.mem_append.mpr (Or.inr (List.mem_cons_self ..))) hc'
        · exact hkr hc'
      · exact hdisjlr hc (List.mem_cons_self ..)
    refine ⟨?_, ?_, ?_⟩
    · show SortedT (avlInsert (copy_tree (copy_tree s r) l) k v).root
      rw [avlInsert_root]
      exact sortedT_insertT _ _ _ hs2
    · show (toList (avlInsert (copy_tree (copy_tree s r) l) k v).root).length
        = _
      rw [avlInsert_root, length_insertT_not_mem _ _ _ hs2 hknotin, hl2, hl1,
        toList_node]
      simp only [List.length_append, List.length_cons]
      omega
    · intro k'
      show k' ∈ keys (avlInsert (copy_tree (copy_tree s r) l) k v).root ↔ _
      rw [avlInsert_root, mem_keys_insertT _ _ _ _ hs2, hm2 k', hm1 k',
        keys_node]
      simp only [List.mem_append, List.mem_cons]
      tauto

theorem mapSwap_wf (m x : MapState α β) (hx : MapWF x) :
    MapWF (mapSwap m x).1 := hx

theorem mapAssign_wf (m x : MapState α β) (hx : MapWF x) :
    MapWF (mapAssign m x) := by
  obtain ⟨hsx, hszx⟩ := hx
  have hnd : (keys x.tree.root).Nodup := hsx.imp ne_of_lt
  obtain ⟨h1, h2, h3⟩ := copy_tree_wf x.tree.root ⟨NTree.nil, NTree.nil⟩
    List.Pairwise.nil hnd (by intro k' hk' hc; simp [keys, toList] at hc)
  refine ⟨h1, ?_⟩
  show x.size = _
  rw [hszx]
  simpa using h2.symm

/-- The side condition on an operation sequence: the partner maps handed
to `swap` and `operator=` are themselves well-formed map objects. -/
def opWF : MapOp α β → Prop
  | MapOp.swapWith x => MapWF x
  | MapOp.assignFrom x => MapWF x
  | _ => True

instance (op : MapOp α β) : Decidable (opWF op) :=
  match op with
  | MapOp.swapWith x => inferInstanceAs (Decidable (MapWF x))
  | MapOp.assignFrom x => inferInstanceAs (Decidable (MapWF x))
  | MapOp.insertOp _ => inferInstanceAs (Decidable True)
  | MapOp.bracketAssign _ _ => inferInstanceAs (Decidable True)
  | MapOp.eraseByKey _ => inferInstanceAs (Decidable True)
  | MapOp.eraseByIter _ => inferInstanceAs (Decidable True)
  | MapOp.eraseRange _ => inferInstanceAs (Decidable True)
  | MapOp.clearOp => inferInstanceAs (Decidable True)

/-- Every mutating map operation re-establishes the size/count
invariant. -/
theorem applyOp_wf [Inhabited β] (op : MapOp α β) (m : MapState α β)
    (hw : MapWF m) (hop : opWF op) : MapWF (applyOp m op) := by
  cases op with
  | insertOp kv => exact mapInsert_wf m kv hw
  | bracketAssign k v => exact mapBracketAssign_wf m k v hw
  | eraseByKey k => exact mapEraseKey_wf m k hw
  | eraseByIter k => exact mapEraseIter_wf m k hw
  | eraseRange ks => exact mapEraseRange_wf m ks hw
  | clearOp => exact mapClear_wf m hw
  | swapWith x => exact mapSwap_wf m x hop
  | assignFrom x => exact mapAssign_wf m x hop

theorem applyOps_wf [Inhabited β] (ops : List (MapOp α β))
    (m : MapState α β) (hw : MapWF m) (hops : ∀ op ∈ ops, opWF op) :
    MapWF (applyOps ops m) := by
  induction ops generalizing m with
  | nil => exact hw
  | cons op ops ih =>
    exact ih _ (applyOp_wf op m hw (hops op (List.mem_cons_self ..)))
      fun o ho => hops o (List.mem_cons_of_mem _ ho)

/-- A run of single-value inserts accumulates exactly the inserted keys. -/
theorem keys_foldInsert [Inhabited β] (ps : List (α × β))
    (m : MapState α β) (hw : MapWF m) :
    MapWF (applyOps (ps.map MapOp.insertOp) m) ∧
    ∀ k', k' ∈ keys (applyOps (ps.map MapOp.insertOp) m).tree.root ↔
      k' ∈ keys m.tree.root ∨ k' ∈ ps.map Prod.fst := by
  induction ps generalizing m with
  | nil => exact ⟨hw, fun k' => by simp [applyOps]⟩
  | cons kv ps ih =>
    have h1 := mapInsert_wf m kv hw
    obtain ⟨ihw, ihm⟩ := ih (mapInsert m kv).1 h1
    have hstep : applyOps ((kv :: ps).map MapOp.insertOp) m
        = applyOps (ps.map MapOp.insertOp) (mapInsert m kv).1 := rfl
    refine ⟨hstep ▸ ihw, fun k' => ?_⟩
    rw [hstep, ihm k', mem_keys_mapInsert m kv k' hw.1]
    simp only [List.map_cons, List.mem_cons]
    tauto

/-- Erasing every key of a well-formed map (each exactly once, in any
order) empties it. -/
theorem eraseAll_empty [Inhabited β] (er : List α) (m : MapState α β)
    (hw : MapWF m) (hnd : er.Nodup)
    (hiff : ∀ k', k' ∈ keys m.tree.root ↔ k' ∈ er) :
    (applyOps (er.map MapOp.eraseByKey) m).tree.root = NTree.nil ∧
    (applyOps (er.map MapOp.eraseByKey) m).size = 0 := by
  induction er generalizing m with
  | nil =>
    have hkeys : keys m.tree.root = [] := by
      rw [List.eq_nil_iff_forall_not_mem]
      intro k' hk'
      simpa using (hiff k').mp hk'
    have hroot : m.tree.root = NTree.nil := by
      refine (toList_eq_nil_iff _).mp ?_
      have := hkeys
      rw [keys_eq_map] at this
      exact List.map_eq_nil_iff.mp this
    refine ⟨hroot, ?_⟩
    show m.size = 0
    rw [hw.2, hroot]
    rfl
  | cons k er ih =>
    have hk : k ∈ keys m.tree.root := (hiff k).mpr (List.mem_cons_self ..)
    rw [List.nodup_cons] at hnd
    have hstep : applyOps ((k :: er).map MapOp.eraseByKey) m
        = applyOps (er.map MapOp.eraseByKey) (mapEraseKey m k).1 := rfl
    rw [hstep]
    have hw1 := mapEraseKey_wf m k hw
    have hsome : (searchT m.tree.root k).isSome = true :=
      (searchT_isSome_iff _ _ hw.1).mpr hk
    have htree : (mapEraseKey m k).1.tree.root = deleteT m.tree.root k := by
      unfold mapEraseKey
      cases hsr : searchT m.tree.root k with
      | none => rw [hsr] at hsome; simp at hsome
      | some p => rfl
    apply ih (mapEraseKey m k).1 hw1 hnd.2
    intro k'
    rw [htree, mem_keys_deleteT m.tree.root k k' hw.1]
    constructor
    · rintro ⟨hmem, hne⟩
      rcases List.mem_cons.mp ((hiff k').mp hmem) with h | h
      · exact absurd h hne
      · exact h
    · intro hk'
      refine ⟨(hiff k').mpr (List.mem_cons_of_mem _ hk'), ?_⟩
      intro he
      exact hnd.1 (he ▸ hk')

/-- `AVL::create_node` (avl.hpp lines 313-324) under a fallible allocator:
when `fl` is set the allocator raises during node creation, before the
fresh node is linked anywhere. -/
def create_nodeE (fl : Bool) (k : α) (v : β) : Except Unit (NTree α β) :=
  if fl then Except.error ()
  else Except.ok (NTree.node NTree.nil k v 1 NTree.nil)

/-- Recursive `AVL::insert` under a fallible allocator.  In the source a
raise propagates out of each recursion frame before that frame's
child-pointer assignment, `update_height` and `balance_tree` execute, so
the error payload records the subtree exactly as stack unwinding leaves
it: the old child pointer with whatever the deeper frames left behind. -/
def insertTE (fl : Bool) :
    NTree α β → α → β → Except (NTree α β) (NTree α β)
  | NTree.nil, k, v =>
    match create_nodeE fl k v with
    | Except.error _ => Except.error NTree.nil
    | Except.ok n => Except.ok n
  | NTree.node l tk tv h r, k, v =>
    if is_equal tk k then Except.ok (NTree.node l tk tv h r)
    else if tk < k then
      match insertTE fl r k v with
      | Except.error r' => Except.error (NTree.node l tk tv h r')
      | Except.ok r' =>
        Except.ok (balance_tree (updH (NTree.node l tk tv h r')))
    else
      match insertTE fl l k v with
      | Except.error l' => Except.error (NTree.node l' tk tv h r)
      | Except.ok l' =>
        Except.ok (balance_tree (updH (NTree.node l' tk tv h r)))

/-- Public `AVL::insert` under a fallible allocator: on a raise neither
`this->root` nor `root_parent->left` is reassigned. -/
def avlInsertE (fl : Bool) (s : AVLState α β) (k : α) (v : β) :
    Except (AVLState α β) (AVLState α β) :=
  match insertTE fl s.root k v with
  | Except.error t => Except.error ⟨t, s.rpLeft⟩
  | Except.ok t => Except.ok ⟨t, t⟩

/-- `Map::insert` under a fallible allocator: on a raise from the tree
insert, `++this->_size` never executes.  The error payload is the map
state after the failed call. -/
def mapInsertE (fl : Bool) (m : MapState α β) (kv : α × β) :
    Except (MapState α β) (MapState α β × (Option (α × β) × Bool)) :=
  let tmp := searchT m.tree.root kv.1
  match avlInsertE fl m.tree kv.1 kv.2 with
  | Except.error s => Except.error ⟨s, m.size⟩
  | Except.ok s =>
    match tmp with
    | some p => Except.ok (⟨s, m.size⟩, (some p, false))
    | none => Except.ok (⟨s, m.size + 1⟩, (searchT s.root kv.1, true))

/-- With a healthy allocator the fallible insert is the ordinary one. -/
theorem insertTE_false_eq (t : NTree α β) (k : α) (v : β) :
    insertTE false t k v = Except.ok (insertT t k v) := by
  induction t with
  | nil => rfl
  | node l tk tv h r ihl ihr =>
    by_cases heq : is_equal tk k
    · simp only [insertTE, insertT, if_pos heq]
    · by_cases hlt : tk < k
      · simp only [insertTE, insertT, if_neg heq, if_pos hlt, ihr]
      · simp only [insertTE, insertT, if_neg heq, if_neg hlt, ihl]

/-- When the allocator raises and the key is absent (so node creation is
reached), the recursive insert propagates the error and every frame's
subtree is left exactly as it was. -/
theorem insertTE_true_of_not_mem (t : NTree α β) (k : α) (v : β)
    (hm : k ∉ keys t) : insertTE true t k v = Except.error t := by
  induction t with
  | nil => rfl
  | node l tk tv h r ihl ihr =>
    rw [keys_node] at hm
    simp only [List.mem_append, List.mem_cons, not_or] at hm
    obtain ⟨hml, hne, hmr⟩ := hm
    have heq : ¬ is_equal tk k = true := fun h =>
      hne ((is_equal_iff tk k).mp h).symm
    by_cases hlt : tk < k
    · simp only [insertTE, if_neg heq, if_pos hlt, ihr hmr]
    · simp only [insertTE, if_neg heq, if_neg hlt, ihl hml]

theorem copy_tree_sync (t : NTree α β) (s : AVLState α β)
    (h : s.rpLeft = s.root) :
    (copy_tree s t).rpLeft = (copy_tree s t).root := by
  induction t generalizing s with
  | nil => exact h
  | node l k v hh r ihl ihr => rfl

/-- Left child of a node (`root->left`), `NULL` on `NULL`. -/
def leftOf : NTree α β → NTree α β
  | NTree.nil => NTree.nil
  | NTree.node l _ _ _ _ => l

/-- Right child of a node (`root->right`), `NULL` on `NULL`. -/
def rightOf : NTree α β → NTree α β
  | NTree.nil => NTree.nil
  | NTree.node _ _ _ _ r => r

/-- Assignment `root->left = ...`. -/
def withLeft : NTree α β → NTree α β → NTree α β
  | NTree.nil, _ => NTree.nil
  | NTree.node _ k v h r, l' => NTree.node l' k v h r

/-- Assignment `root->right = ...`. -/
def withRight : NTree α β → NTree α β → NTree α β
  | NTree.nil, _ => NTree.nil
  | NTree.node l k v h _, r' => NTree.node l k v h r'

/-- The operation sequence exhibiting the rebalancing defect: eight
map-level inserts building a balanced tree, then `erase(10)`. -/
def c1Ops : List (MapOp Int Int) :=
  ([8, 4, 9, 2, 5, 10, 1, 6].map fun k => MapOp.insertOp (k, 0))
    ++ [MapOp.eraseByKey 10]

/-- C1: the claim says that after every sequence of map-level inserts and
erases every node satisfies `|height(left) - height(right)| ≤ 1`.  The
code violates it: the eight inserts of `c1Ops` build a balanced tree, but
the subsequent `erase(10)` leaves the node with key 4 with a left subtree
of height 2 and no right subtree.  (Cause: `balance_tree` tests
`get_balance(child) > 0` / `< 0` where the spec and its own header
comment require `>= 0` / `<= 0`, so a delete that unbalances a node whose
taller child has balance 0 performs the double rotation, which does not
restore balance.) -/
theorem c1_balance_invariant_violated :
    balancedB (applyOps ([8, 4, 9, 2, 5, 10, 1, 6].map fun k =>
        MapOp.insertOp ((k : Int), (0 : Int))) emptyMap).tree.root = true
    ∧ balancedB (applyOps c1Ops emptyMap).tree.root = false := by
  constructor
  · decide
  · decide

/-- The rebalancing input on which the original C2 claim fails: balance
factor 2 at the root (key 4) with a left child (key 2) of balance 0. -/
def c2Tree : NTree Int Int :=
  NTree.node
    (NTree.node (NTree.node NTree.nil 1 0 1 NTree.nil) 2 0 2
      (NTree.node NTree.nil 3 0 1 NTree.nil))
    4 0 3 NTree.nil

/-- C2 counterexample: at `c2Tree` the balance factor is 2 and the left
child's balance factor is 0, yet `balance_tree` does not perform the
single right rotation the claim requires for `get_balance(left) >= 0` —
it performs the left-then-right double rotation instead. -/
theorem c2_counterexample :
    get_balance c2Tree = 2 ∧ 0 ≤ get_balance (leftOf c2Tree) ∧
    balance_tree c2Tree ≠ right_rotation c2Tree ∧
    balance_tree c2Tree
      = right_rotation (withLeft c2Tree (left_rotation (leftOf c2Tree))) := by
  refine ⟨by decide, by decide, by decide, by decide⟩

/-- C2 (amended): for a node with balance factor 2, `balance_tree`
performs the single right rotation exactly when the left child's balance
factor is *strictly* positive, and the left-rotation-then-right-rotation
double otherwise (balance factor `≤ 0`); the right-heavy case is the
mirror image with a strictly negative threshold. -/
theorem c2_rebalance_case_analysis (t : NTree α β) :
    (get_balance t = 2 →
      (0 < get_balance (leftOf t) → balance_tree t = right_rotation t) ∧
      (get_balance (leftOf t) ≤ 0 →
        balance_tree t
          = right_rotation (withLeft t (left_rotation (leftOf t))))) ∧
    (get_balance t = -2 →
      (get_balance (rightOf t) < 0 → balance_tree t = left_rotation t) ∧
      (0 ≤ get_balance (rightOf t) →
        balance_tree t
          = left_rotation (withRight t (right_rotation (rightOf t))))) := by
  cases t with
  | nil =>
    constructor <;> (intro hb; simp [get_balance] at hb)
  | node l k v h r =>
    constructor
    · intro hb
      constructor
      · intro hl
        rw [leftOf] at hl
        simp [balance_tree, hb, leftOf, hl]
      · intro hl
        rw [leftOf] at hl
        simp [balance_tree, hb, leftOf, withLeft, not_lt.mpr hl]
    · intro hb
      constructor
      · intro hr
        rw [rightOf] at hr
        simp [balance_tree, hb, rightOf, hr]
      · intro hr
        rw [rightOf] at hr
        simp [balance_tree, hb, rightOf, withRight, not_lt.mpr hr]

/-- A rebalancing input with left-child balance 1 (single-rotation case). -/
def c2TreeW : NTree Int Int :=
  NTree.node
    (NTree.node (NTree.node NTree.nil 1 0 1 NTree.nil) 2 0 2 NTree.nil)
    3 0 3 NTree.nil

/-- C2 witness: the amended case analysis applied at concrete inputs for
both the single-rotation and the double-rotation branch. -/
theorem c2_witness :
    balance_tree c2TreeW = right_rotation c2TreeW ∧
    balance_tree c2Tree
      = right_rotation (withLeft c2Tree (left_rotation (leftOf c2Tree))) :=
  ⟨((c2_rebalance_case_analysis c2TreeW).1 (by decide)).1 (by decide),
   ((c2_rebalance_case_analysis c2Tree).1 (by decide)).2 (by decide)⟩

/-- C3: on a map whose tree already stores `(k, v₀)`, a map-level
`insert (k, v)` reports `(iterator-to-existing-element, false)`, leaves
`_size` unchanged and leaves the stored mapped value `v₀` intact, while
an assignment through `operator[] (k)` replaces the stored value by `v`. -/
theorem c3_insert_existing_vs_bracket [Inhabited β] (m : MapState α β)
    (k : α) (v v₀ : β) (hs : SortedT m.tree.root)
    (hm : (k, v₀) ∈ toList m.tree.root) :
    ((mapInsert m (k, v)).2).2 = false ∧
    ((mapInsert m (k, v)).2).1 = some (k, v₀) ∧
    (mapInsert m (k, v)).1.size = m.size ∧
    (toList (mapInsert m (k, v)).1.tree.root).find?
        (fun p => decide (p.1 = k)) = some (k, v₀) ∧
    (toList (mapBracketAssign m k v).tree.root).find?
        (fun p => decide (p.1 = k)) = some (k, v) := by
  have hsr : searchT m.tree.root k = some (k, v₀) :=
    searchT_of_mem m.tree.root k v₀ hs hm
  have hkm : k ∈ keys m.tree.root := by
    rw [keys_eq_map]
    exact List.mem_map_of_mem Prod.fst hm
  refine ⟨?_, ?_, ?_, ?_, ?_⟩
  · unfold mapInsert
    rw [hsr]
  · unfold mapInsert
    rw [hsr]
  · unfold mapInsert
    rw [hsr]
  · have htr : (mapInsert m (k, v)).1.tree.root
        = insertT m.tree.root k v := by
      rw [mapInsert_fst_tree]
      rfl
    rw [htr, toList_insertT_mem m.tree.root k v hs hkm]
    exact find?_of_mem_nodup (hs.imp ne_of_lt) hm
  · have ht1 : (mapBracketAssign m k v).tree.root
        = setVal (mapInsert m (k, (default : β))).1.tree.root k v := rfl
    have hs1 : SortedT (mapInsert m (k, (default : β))).1.tree.root := by
      rw [mapInsert_fst_tree]
      exact sortedT_insertT _ _ _ hs
    have hk1 : k ∈ keys (mapInsert m (k, (default : β))).1.tree.root :=
      (mem_keys_mapInsert m (k, (default : β)) k hs).mpr (Or.inr rfl)
    rw [ht1]
    exact find?_setVal _ k v hs1 hk1

/-- A concrete well-formed map storing (1, 10) and (2, 20). -/
def c3Map : MapState Int Int :=
  ⟨⟨NTree.node (NTree.node NTree.nil 1 10 1 NTree.nil) 2 20 2 NTree.nil,
    NTree.node (NTree.node NTree.nil 1 10 1 NTree.nil) 2 20 2 NTree.nil⟩,
   2⟩

/-- C3 witness: the theorem applied at `c3Map`, key 1, new value 99. -/
theorem c3_witness :
    ((mapInsert c3Map (1, 99)).2).2 = false ∧
    ((mapInsert c3Map (1, 99)).2).1 = some (1, 10) ∧
    (mapInsert c3Map (1, 99)).1.size = c3Map.size ∧
    (toList (mapInsert c3Map (1, 99)).1.tree.root).find?
        (fun p => decide (p.1 = 1)) = some (1, 10) ∧
    (toList (mapBracketAssign c3Map 1 99).tree.root).find?
        (fun p => decide (p.1 = 1)) = some (1, 99) :=
  c3_insert_existing_vs_bracket c3Map 1 99 10 (by decide) (by decide)

/-- C4 counterexample: the claim says the tree-level insert of `(1, 99)`
into a tree storing `(1, 10)` overwrites the mapped value in place; in
fact `AVL::insert` returns the subtree unchanged on an equivalent key
(avl.hpp line 417-418) and the stored value remains 10. -/
theorem c4_counterexample :
    insertT (NTree.node NTree.nil (1 : Int) (10 : Int) 1 NTree.nil) 1 99
      = NTree.node NTree.nil 1 10 1 NTree.nil ∧ (10 : Int) ≠ 99 := by
  refine ⟨by decide, by decide⟩

/-- C4 (amended): for every well-formed tree (key-ordered, correct cached
heights, balanced) and every value whose key is equivalent to a present
key, the tree-level insert returns the tree itself: the mapped value is
*not* overwritten, no node is allocated, and no structural change
occurs. -/
theorem c4_insert_equivalent_key_unchanged (t : NTree α β) (k : α) (v : β)
    (hs : SortedT t) (hh : heightsOK t) (hb : balancedB t)
    (hm : k ∈ keys t) : insertT t k v = t :=
  insertT_of_mem_eq_self t k v hs hh hb hm

/-- A concrete well-formed tree with keys 1, 2, 3. -/
def c4Tree : NTree Int Int :=
  NTree.node (NTree.node NTree.nil 1 10 1 NTree.nil) 2 20 2
    (NTree.node NTree.nil 3 30 1 NTree.nil)

/-- C4 witness: inserting key 2 (present) with a different value returns
`c4Tree` itself. -/
theorem c4_witness : insertT c4Tree 2 99 = c4Tree :=
  c4_insert_equivalent_key_unchanged c4Tree 2 99 (by decide) (by decide)
    (by decide) (by decide)

/-- C5: on every key-ordered tree, `lower_bound k` returns the first
in-order node whose key is not ordered strictly before `k` and
`upper_bound k` the first whose key is ordered strictly after `k` (absent
result when no such node exists). -/
theorem c5_bound_correctness (t : NTree α β) (k : α) (hs : SortedT t) :
    lower_boundT t k = (toList t).find? (fun p => decide (¬ p.1 < k)) ∧
    upper_boundT t k = (toList t).find? (fun p => decide (k < p.1)) :=
  ⟨lower_boundT_eq_find? t k hs, upper_boundT_eq_find? t k hs⟩

/-- The spec's example tree with keys 20, 40, 60, 80, 100. -/
def c5Tree : NTree Int Int :=
  NTree.node
    (NTree.node (NTree.node NTree.nil 20 0 1 NTree.nil) 40 0 2
      (NTree.node NTree.nil 60 0 1 NTree.nil))
    80 0 3 (NTree.node NTree.nil 100 0 1 NTree.nil)

/-- C5 witness: the spec's three examples, `lower_bound(41) = 60`,
`upper_bound(60) = 80`, `lower_bound(20) = 20`. -/
theorem c5_witness :
    lower_boundT c5Tree 41 = some (60, 0) ∧
    upper_boundT c5Tree 60 = some (80, 0) ∧
    lower_boundT c5Tree 20 = some (20, 0) :=
  ⟨((c5_bound_correctness c5Tree 41 (by decide)).1).trans (by decide),
   ((c5_bound_correctness c5Tree 60 (by decide)).2).trans (by decide),
   ((c5_bound_correctness c5Tree 20 (by decide)).1).trans (by decide)⟩

/-- C6: after every sequence of mutating map operations starting from a
fresh map (with well-formed partner maps for `swap`/assignment), the
cached `_size` equals the number of nodes an in-order traversal visits. -/
theorem c6_size_eq_inorder_count [Inhabited β] (ops : List (MapOp α β))
    (hops : ∀ op ∈ ops, opWF op) :
    (applyOps ops emptyMap).size
      = (toList (applyOps ops emptyMap).tree.root).length :=
  (applyOps_wf ops emptyMap emptyMap_wf hops).2

/-- A concrete well-formed partner map for swap/assignment. -/
def c6Partner : MapState Int Int :=
  ⟨⟨NTree.node (NTree.node NTree.nil 1 5 1 NTree.nil) 7 8 2 NTree.nil,
    NTree.node (NTree.node NTree.nil 1 5 1 NTree.nil) 7 8 2 NTree.nil⟩,
   2⟩

/-- A sequence exercising every mutating operation kind. -/
def c6Ops : List (MapOp Int Int) :=
  [MapOp.insertOp (3, 30), MapOp.insertOp (1, 10), MapOp.bracketAssign 5 50,
   MapOp.insertOp (3, 99), MapOp.eraseByKey 1, MapOp.eraseByIter 3,
   MapOp.eraseRange [5, 42], MapOp.insertOp (2, 20),
   MapOp.swapWith c6Partner, MapOp.assignFrom c6Partner, MapOp.clearOp,
   MapOp.insertOp (4, 40)]

/-- C6 witness: the size/count equality after the `c6Ops` sequence. -/
theorem c6_witness :
    (applyOps c6Ops emptyMap).size
      = (toList (applyOps c6Ops emptyMap).tree.root).length :=
  c6_size_eq_inorder_count c6Ops (by decide)

/-- C7: inserting pairwise distinct keys (in any order, with any values)
and then erasing all of them in any order leaves `size() = 0` and
`begin() = end()`. -/
theorem c7_roundtrip [Inhabited β] (ps : List (α × β)) (er : List α)
    (hnd : (ps.map Prod.fst).Nodup) (hperm : er.Perm (ps.map Prod.fst)) :
    (applyOps (ps.map MapOp.insertOp ++ er.map MapOp.eraseByKey)
        emptyMap).size = 0 ∧
    mapBegin (applyOps (ps.map MapOp.insertOp ++ er.map MapOp.eraseByKey)
        emptyMap)
      = mapEnd (applyOps (ps.map MapOp.insertOp ++ er.map MapOp.eraseByKey)
          emptyMap) := by
  have hfold : applyOps (ps.map MapOp.insertOp ++ er.map MapOp.eraseByKey)
      emptyMap
      = applyOps (er.map MapOp.eraseByKey)
          (applyOps (ps.map MapOp.insertOp) emptyMap) := by
    unfold applyOps
    rw [List.foldl_append]
  obtain ⟨hw1, hm1⟩ := keys_foldInsert ps emptyMap emptyMap_wf
  have hiff : ∀ k', k' ∈ keys
      (applyOps (ps.map MapOp.insertOp) emptyMap).tree.root ↔ k' ∈ er := by
    intro k'
    rw [hm1 k']
    constructor
    · rintro (h | h)
      · simp [emptyMap, keys, toList] at h
      · exact hperm.mem_iff.mpr h
    · intro h
      exact Or.inr (hperm.mem_iff.mp h)
  have hnd' : er.Nodup := hperm.nodup_iff.mpr hnd
  obtain ⟨hroot, hsize⟩ := eraseAll_empty er _ hw1 hnd' hiff
  rw [hfold]
  refine ⟨hsize, ?_⟩
  unfold mapBegin mapEnd
  rw [hroot, hsize]
  rfl

/-- C7 witness: three inserts then three erases in a different order. -/
theorem c7_witness :
    (applyOps ([((1 : Int), (10 : Int)), (2, 20), (3, 30)].map
        MapOp.insertOp ++ [(2 : Int), 3, 1].map MapOp.eraseByKey)
        emptyMap).size = 0 ∧
    mapBegin (applyOps ([((1 : Int), (10 : Int)), (2, 20), (3, 30)].map
        MapOp.insertOp ++ [(2 : Int), 3, 1].map MapOp.eraseByKey) emptyMap)
      = mapEnd (applyOps ([((1 : Int), (10 : Int)), (2, 20), (3, 30)].map
          MapOp.insertOp ++ [(2 : Int), 3, 1].map MapOp.eraseByKey)
          emptyMap) :=
  c7_roundtrip [(1, 10), (2, 20), (3, 30)] [2, 3, 1] (by decide) (by decide)

/-- C8: every structural mutation of the tree re-establishes
`root_parent->left == root` — unconditionally for insert, delete, clear
and assignment, and for swap, whose exchange of the two handle pairs
preserves the synchronisation each operand already had. -/
theorem c8_sentinel_left_eq_root (s x rhs : AVLState α β) (k : α) (v : β) :
    (avlInsert s k v).rpLeft = (avlInsert s k v).root ∧
    (avlDelete s k).rpLeft = (avlDelete s k).root ∧
    (avlClear s).rpLeft = (avlClear s).root ∧
    (avlAssign s rhs).rpLeft = (avlAssign s rhs).root ∧
    (x.rpLeft = x.root →
      (avlSwap s x).1.rpLeft = (avlSwap s x).1.root) ∧
    (s.rpLeft = s.root →
      (avlSwap s x).2.rpLeft = (avlSwap s x).2.root) :=
  ⟨rfl, rfl, rfl, copy_tree_sync rhs.root ⟨NTree.nil, NTree.nil⟩ rfl,
   fun h => h, fun h => h⟩

/-- A concrete synchronized tree state. -/
def c8State : AVLState Int Int :=
  ⟨NTree.node NTree.nil 1 1 1 NTree.nil, NTree.node NTree.nil 1 1 1 NTree.nil⟩

/-- C8 witness: the theorem applied at concrete states, discharging the
synchronisation hypotheses of the swap clauses. -/
theorem c8_witness :
    (avlInsert c8State 5 5).rpLeft = (avlInsert c8State 5 5).root ∧
    (avlSwap c8State c8State).1.rpLeft = (avlSwap c8State c8State).1.root :=
  ⟨(c8_sentinel_left_eq_root c8State c8State c8State 5 5).1,
   (c8_sentinel_left_eq_root c8State c8State c8State 5 5).2.2.2.2.1
     (by decide)⟩

/-- C9: if the allocator raises during node creation inside an insert
(the key is absent, so creation is attempted, and the allocator is
failing), the map-level insert propagates the error, and the state it
leaves behind is exactly the original map: same tree, same sentinel, same
`_size`. -/
theorem c9_alloc_failure_atomic (m : MapState α β) (kv : α × β)
    (hm : kv.1 ∉ keys m.tree.root) :
    mapInsertE true m kv = Except.error m := by
  unfold mapInsertE avlInsertE
  rw [insertTE_true_of_not_mem m.tree.root kv.1 kv.2 hm]

/-- C9 witness: the failing insert of the absent key 3 into `c3Map`
returns the error carrying `c3Map` itself. -/
theorem c9_witness : mapInsertE true c3Map (3, 30) = Except.error c3Map :=
  c9_alloc_failure_atomic c3Map (3, 30) (by decide)

/-- C10: the hinted insert ignores its hint entirely: for any two hints
it produces the same result, its resulting map state is the state of the
single-argument insert, and the iterator it returns is the
single-argument insert's `.first`. -/
theorem c10_hint_has_no_effect (m : MapState α β)
    (pos pos' : Option (α × β)) (kv : α × β) :
    mapInsertHint pos m kv = mapInsertHint pos' m kv ∧
    (mapInsertHint pos m kv).1 = (mapInsert m kv).1 ∧
    (mapInsertHint pos m kv).2 = ((mapInsert m kv).2).1 :=
  ⟨rfl, rfl, rfl⟩

end FtContainers
